import Mathlib

/-!
Verification of the NHP analyzer's ingredient-extraction pipeline
(`backend/pdf_processor.py`) and classification cache/orchestrator
(`backend/rag_processor.py`).

The Python code is shallowly embedded: strings are `List Char`, the specific
regular expressions used by the code are hand-compiled into executable
recursive functions (the greedy/backtracking behaviour of each concrete
pattern is reproduced; a comment on each function records the pattern it
implements), and the stateful classifier is modelled as a pure function from
an explicit environment (retrieval service, LLM service, cache-write outcome)
and cache to an outcome record.  Scanning functions that consume a variable
number of characters per step take an explicit fuel argument (always called
with fuel ≥ input length, which makes them total and kernel-computable); each
step consumes at least one character, so the fuel never runs out on the
initial call.
-/

namespace NHP

abbrev Chars := List Char

/-- Python `\s` / `str.strip()` whitespace (ASCII subset; the repository's
inputs are OCR'd ASCII text). -/
def pyIsSpace (c : Char) : Bool :=
  c == ' ' || c == '\t' || c == '\n' || c == '\r' || c == '\x0b' || c == '\x0c'

/-- Python `str.strip()`: drop leading and trailing whitespace. -/
def pyStrip (l : Chars) : Chars :=
  ((l.dropWhile pyIsSpace).reverse.dropWhile pyIsSpace).reverse

/-- Python `str.lower()` (ASCII case folding). -/
def lowerChars (l : Chars) : Chars := l.map Char.toLower

/-- Python `str.split()` helper: accumulate the current token (reversed). -/
def pySplitAux : Chars → Chars → List Chars
  | [], acc => if acc = [] then [] else [acc.reverse]
  | c :: cs, acc =>
    if pyIsSpace c then
      if acc = [] then pySplitAux cs [] else acc.reverse :: pySplitAux cs []
    else pySplitAux cs (c :: acc)

/-- Python `str.split()` with no argument: split on whitespace runs,
dropping empty tokens. -/
def pySplit (l : Chars) : List Chars := pySplitAux l []

/-- Python `' '.join(tokens)`. -/
def joinSpaces : List Chars → Chars
  | [] => []
  | [t] => t
  | t :: t' :: ts => t ++ ' ' :: joinSpaces (t' :: ts)

/-- Python `' '.join(s.split())`: collapse internal whitespace runs to single
spaces (also strips). -/
def normSpace (l : Chars) : Chars := joinSpaces (pySplit l)

/-- Python `needle in haystack` (substring test). -/
def containsSub (hay pat : Chars) : Bool :=
  match hay with
  | [] => pat.isEmpty
  | _ :: cs => pat.isPrefixOf hay || containsSub cs pat

/-- Case-insensitive prefix test (used to compile `re.IGNORECASE` literals;
ASCII case folding). -/
def ciStartsWith : Chars → Chars → Bool
  | [], _ => true
  | _ :: _, [] => false
  | p :: ps, c :: cs => (p.toLower == c.toLower) && ciStartsWith ps cs

/-- First index (if any) at which `pat` occurs case-insensitively in `l`. -/
def findCI (l pat : Chars) : Option Nat :=
  match l with
  | [] => if ciStartsWith pat [] then some 0 else none
  | c :: cs =>
    if ciStartsWith pat (c :: cs) then some 0
    else (findCI cs pat).map (· + 1)

/-- Python `[ \t]` character class. -/
def isSpTab (c : Char) : Bool := c == ' ' || c == '\t'

/-! ## `PDFProcessor._clean_ingredient_name` (pdf_processor.py 183-186)

```python
name = re.sub(r'\s*\([^)]*\)', '', name).strip()
name = ' '.join(name.split())
```
-/

/-- One attempted match of `\s*\([^)]*\)` anchored at the head of `l`:
greedily skip whitespace, require `'('`, greedily take non-`')'` characters,
require `')'`; on success return the remainder after the match.  (Since
`\s` and `(` are disjoint and `[^)]` excludes `)`, the greedy quantifiers
are deterministic here.) -/
def parenMatch (l : Chars) : Option Chars :=
  match l.dropWhile pyIsSpace with
  | '(' :: rest =>
    match rest.dropWhile (fun c => !(c == ')')) with
    | ')' :: tail => some tail
    | _ => none
  | _ => none

/-- `re.sub(r'\s*\([^)]*\)', '', name)`: left-to-right non-overlapping
removal of all matches (fuelled; each match consumes ≥ 2 characters). -/
def subParensF : Nat → Chars → Chars
  | _, [] => []
  | 0, l => l
  | n + 1, c :: cs =>
    match parenMatch (c :: cs) with
    | some tail => subParensF n tail
    | none => c :: subParensF n cs

def subParens (l : Chars) : Chars := subParensF l.length l

/-- The full `_clean_ingredient_name` on character lists. -/
def cleanNameCore (l : Chars) : Chars := normSpace (pyStrip (subParens l))

/-- `PDFProcessor._clean_ingredient_name`. -/
def clean_ingredient_name (s : String) : String := ⟨cleanNameCore s.data⟩

/-! ## `PDFProcessor._clean_text` (pdf_processor.py 104-109)

```python
text = re.sub(r'[ \t]+', ' ', text)
text = re.sub(r'--- Page \d+ ---', '', text)
text = text.replace('–', '-').replace('’', "'").replace('“', '"').replace('”', '"')
text = re.sub(r'\n\s*\n', '\n\n', text)
return text.strip()
```
-/

/-- `re.sub(r'[ \t]+', ' ', text)` (fuelled). -/
def collapseSpTabF : Nat → Chars → Chars
  | _, [] => []
  | 0, l => l
  | n + 1, c :: cs =>
    if isSpTab c then ' ' :: collapseSpTabF n (cs.dropWhile isSpTab)
    else c :: collapseSpTabF n cs

def collapseSpTab (l : Chars) : Chars := collapseSpTabF l.length l

/-- Helper: after the literal `--- Page `, require a nonempty greedy digit
run (`\d+`) followed by the literal ` ---`; return the remainder. -/
def pageMatchTail (r : Chars) : Option Chars :=
  if (r.takeWhile Char.isDigit).isEmpty then none
  else if (" ---".data).isPrefixOf (r.drop (r.takeWhile Char.isDigit).length) then
    some ((r.drop (r.takeWhile Char.isDigit).length).drop 4)
  else none

/-- One attempted match of `--- Page \d+ ---` anchored at the head of `l`;
on success return the remainder after the match. -/
def pageMatch (l : Chars) : Option Chars :=
  if ("--- Page ".data).isPrefixOf l then pageMatchTail (l.drop 9) else none

/-- `re.sub(r'--- Page \d+ ---', '', text)`: left-to-right non-overlapping
removal (fuelled). -/
def removePageMarkersF : Nat → Chars → Chars
  | _, [] => []
  | 0, l => l
  | n + 1, c :: cs =>
    match pageMatch (c :: cs) with
    | some tail => removePageMarkersF n tail
    | none => c :: removePageMarkersF n cs

def removePageMarkers (l : Chars) : Chars := removePageMarkersF l.length l

/-- The chained `str.replace` calls normalising typographic punctuation. -/
def replaceTypographic (l : Chars) : Chars :=
  l.map fun c =>
    if c = '–' then '-'
    else if c = '’' then '\''
    else if c = '“' then '"'
    else if c = '”' then '"'
    else c

/-- One attempted match of `\n\s*\n` anchored at the head of `l`: `\n`, then
a greedy (backtracking) `\s*`, then `\n`.  The match consumes the first `\n`
plus the whitespace run up to and including its last `\n`; on success return
the remainder. -/
def blankMatch (l : Chars) : Option Chars :=
  match l with
  | '\n' :: rest =>
    match ((rest.takeWhile pyIsSpace).reverse.dropWhile (fun c => !(c == '\n'))).length with
    | 0 => none
    | k + 1 => some (rest.drop (k + 1))
  | _ => none

/-- `re.sub(r'\n\s*\n', '\n\n', text)`: each match is replaced by two
newlines, scanning resumes after the match (fuelled). -/
def collapseBlankF : Nat → Chars → Chars
  | _, [] => []
  | 0, l => l
  | n + 1, c :: cs =>
    match blankMatch (c :: cs) with
    | some tail => '\n' :: '\n' :: collapseBlankF n tail
    | none => c :: collapseBlankF n cs

def collapseBlank (l : Chars) : Chars := collapseBlankF l.length l

/-- The full `_clean_text` on character lists. -/
def cleanTextCore (l : Chars) : Chars :=
  pyStrip (collapseBlank (replaceTypographic (removePageMarkers (collapseSpTab l))))

/-- `PDFProcessor._clean_text`. -/
def clean_text (s : String) : String := ⟨cleanTextCore s.data⟩

/-! ## Ingredient data model -/

inductive IngType where
  | medicinal
  | non_medicinal
deriving DecidableEq, Repr

/-- An extracted ingredient dict `{'name': ..., 'amount': ..., 'type': ...}`
(the title-strategy dicts carry no `'amount'` key, modelled as `none`). -/
structure Ingredient where
  name : String
  amount : Option String
  type : IngType
deriving DecidableEq, Repr

/-! ## `PDFProcessor._parse_table_section` (pdf_processor.py 148-181) -/

/-- The junk phrases ignored by `_parse_table_section` (matched as substrings
of the lower-cased line). -/
def ignorePhrases : List Chars :=
  ["each tablet contains", "source ingredient", "mg/tablet", "% by weight",
   "ingredient", "amount"].map String.data

/-- `any(phrase in line.lower() for phrase in ignore_phrases)`. -/
def ignoreLine (l : Chars) : Bool :=
  ignorePhrases.any fun p => containsSub (lowerChars l) p

/-- Does `l` start with a whitespace character? -/
def wsHead : Chars → Bool
  | [] => false
  | c :: _ => pyIsSpace c

/-- Tail of the numeric-column pattern: `(?:\.\d+)?\s+` matches at the head
of `l` (the optional fraction is greedy; if its continuation fails the empty
alternative is retried, which then needs `\s+` directly). -/
def fracThenWs (l : Chars) : Bool :=
  match l with
  | '.' :: d :: rest =>
    if d.isDigit then wsHead ((d :: rest).dropWhile Char.isDigit) else wsHead l
  | _ => wsHead l

/-- `(?:,\d{3})*(?:\.\d+)?\s+` matches at the head of `l` (the starred group
is greedy with backtracking, i.e. some number of `,ddd` repetitions works). -/
def commaFracWs : Chars → Bool
  | ',' :: d1 :: d2 :: d3 :: rest =>
    fracThenWs (',' :: d1 :: d2 :: d3 :: rest) ||
      (d1.isDigit && d2.isDigit && d3.isDigit && commaFracWs rest)
  | l => fracThenWs l

/-- `\d{k}` then `(?:,\d{3})*(?:\.\d+)?\s+` matches at the head of `l`. -/
def digitsThen (k : Nat) (l : Chars) : Bool :=
  ((l.take k).length == k) && (l.take k).all Char.isDigit && commaFracWs (l.drop k)

/-- The numeric-column pattern `\s+(\d{1,4}(?:,\d{3})*(?:\.\d+)?)\s+`
matches at the head of `l` (`\d{1,4}` is greedy with backtracking, i.e. some
count between 1 and 4 works; since digits are not whitespace, `\s+` safely
takes the whole leading whitespace run). -/
def numSplitAt (l : Chars) : Bool :=
  match l with
  | [] => false
  | c :: cs =>
    pyIsSpace c &&
      (digitsThen 1 ((c :: cs).dropWhile pyIsSpace) ||
       digitsThen 2 ((c :: cs).dropWhile pyIsSpace) ||
       digitsThen 3 ((c :: cs).dropWhile pyIsSpace) ||
       digitsThen 4 ((c :: cs).dropWhile pyIsSpace))

/-- `re.search(r'\s+(\d{1,4}(?:,\d{3})*(?:\.\d+)?)\s+', line)`: index of the
first match (`match.start()`), if any. -/
def findNumSplit : Chars → Option Nat
  | [] => none
  | c :: cs =>
    if numSplitAt (c :: cs) then some 0 else (findNumSplit cs).map (· + 1)

/-- The unit alternation of the amount pattern, in Python's evaluation order
(`mg|g|mcg|μg|µg|IU|%|ppm|units?`; the greedy optional `s?` makes `units`
tried before `unit`). -/
def unitAlternatives : List Chars :=
  ["mg", "g", "mcg", "μg", "µg", "IU", "%", "ppm", "units", "unit"].map String.data

/-- First alternative that matches case-insensitively at the head of `l`;
returns the matched text with its original casing (`match.group(2)`). -/
def matchUnit (l : Chars) : Option Chars :=
  unitAlternatives.findSome? fun u =>
    if ciStartsWith u l then some (l.take u.length) else none

/-- One attempted match of `(\d+(?:\.\d+)?)\s*(mg|g|mcg|μg|µg|IU|%|ppm|units?)`
(IGNORECASE) anchored at the head of `l`; on success returns
`(group1, group2)`. -/
def amountMatchAt (l : Chars) : Option (Chars × Chars) :=
  match l with
  | [] => none
  | c :: _ =>
    if c.isDigit then
      match l.drop (l.takeWhile Char.isDigit).length with
      | '.' :: d :: rest =>
        if d.isDigit then
          (matchUnit (((d :: rest).dropWhile Char.isDigit).dropWhile pyIsSpace)).map
            fun u =>
              (l.takeWhile Char.isDigit ++ '.' :: (d :: rest).takeWhile Char.isDigit, u)
        else
          (matchUnit (('.' :: d :: rest).dropWhile pyIsSpace)).map
            fun u => (l.takeWhile Char.isDigit, u)
      | r =>
        (matchUnit (r.dropWhile pyIsSpace)).map fun u => (l.takeWhile Char.isDigit, u)
    else none

/-- `re.search` of the amount pattern over `l`; on success returns the
formatted amount `f"{group1} {group2}"`. -/
def amountSearch : Chars → Option String
  | [] => none
  | c :: cs =>
    match amountMatchAt (c :: cs) with
    | some (g1, g2) => some ⟨g1 ++ ' ' :: g2⟩
    | none => amountSearch cs

/-- The per-line body of the `_parse_table_section` loop: split off the
numeric column (if the numeric-column regex matches), search the remainder
for an amount, clean the name, and keep the ingredient when the cleaned name
is longer than 2 characters. -/
def emitLine (ty : IngType) (line : Chars) : Option Ingredient :=
  match findNumSplit line with
  | none =>
    if (cleanNameCore line).length > 2 then some ⟨⟨cleanNameCore line⟩, none, ty⟩
    else none
  | some i =>
    if (cleanNameCore (pyStrip (line.take i))).length > 2 then
      some ⟨⟨cleanNameCore (pyStrip (line.take i))⟩, amountSearch (pyStrip (line.drop i)), ty⟩
    else none

/-- Does the (already stripped) line end with `'('`
(`line.endswith('(')`)? -/
def endsOpenParen (l : Chars) : Bool := l.getLast? == some '('

/-- The `while` loop of `_parse_table_section` over the stripped, nonempty
physical lines: a line ending in `'('` (with a successor) is joined to the
next line; the (possibly joined) line is dropped when it contains an ignore
phrase, otherwise parsed by `emitLine`. -/
def parseLinesAux (ty : IngType) : List Chars → List Ingredient
  | [] => []
  | [l] =>
    if ignoreLine l then []
    else
      match emitLine ty l with
      | some i => [i]
      | none => []
  | l :: l' :: rest =>
    if endsOpenParen l then
      if ignoreLine (l ++ ' ' :: l') then parseLinesAux ty rest
      else
        match emitLine ty (l ++ ' ' :: l') with
        | some i => i :: parseLinesAux ty rest
        | none => parseLinesAux ty rest
    else
      if ignoreLine l then parseLinesAux ty (l' :: rest)
      else
        match emitLine ty l with
        | some i => i :: parseLinesAux ty (l' :: rest)
        | none => parseLinesAux ty (l' :: rest)

/-- Python `section.split('\n')`. -/
def splitNl : Chars → List Chars
  | [] => [[]]
  | c :: cs =>
    if c = '\n' then [] :: splitNl cs
    else
      match splitNl cs with
      | [] => [[c]]
      | t :: ts => (c :: t) :: ts

/-- `[line.strip() for line in section.split('\n') if line.strip()]`. -/
def sectionLines (sec : Chars) : List Chars :=
  ((splitNl sec).map pyStrip).filter (· ≠ [])

/-- `PDFProcessor._parse_table_section` on character lists. -/
def parseTableSectionCore (ty : IngType) (sec : Chars) : List Ingredient :=
  parseLinesAux ty (sectionLines sec)

/-- `PDFProcessor._parse_table_section`. -/
def parse_table_section (sec : String) (ty : IngType) : List Ingredient :=
  parseTableSectionCore ty sec.data

/-! ## `PDFProcessor._extract_from_section` and `extract_ingredients`
(pdf_processor.py 48-54, 111-146) -/

/-- The lazy group with lookahead `(.*?)(?=stop1|stop2|...|$)` evaluated on
the text following a section label: capture up to the first position where
one of the stop literals matches case-insensitively, or `$` matches (end of
string, or just before a final newline — the pattern is compiled without
`re.MULTILINE`). -/
def captureUntil (stops : List Chars) : Chars → Chars
  | [] => []
  | c :: cs =>
    if stops.any (fun s => ciStartsWith s (c :: cs)) then []
    else if c = '\n' ∧ cs = [] then []
    else c :: captureUntil stops cs

/-- The `finditer` loop of `_extract_from_section` for one pattern of the
shape `LABEL(.*?)(?=stops|$)` (IGNORECASE | DOTALL): walk the successive
matches; return the parsed section for the first match whose stripped capture
is longer than 5 characters (fuelled; each iteration consumes at least the
label). -/
def extractFromSectionF (label : Chars) (stops : List Chars) (ty : IngType) :
    Nat → Chars → List Ingredient
  | 0, _ => []
  | n + 1, l =>
    match findCI l label with
    | none => []
    | some i =>
      if (pyStrip (captureUntil stops (l.drop (i + label.length)))).length > 5 then
        parseTableSectionCore ty (pyStrip (captureUntil stops (l.drop (i + label.length))))
      else
        extractFromSectionF label stops ty n
          ((l.drop (i + label.length)).drop
            (captureUntil stops (l.drop (i + label.length))).length)

/-- Strategy pattern
`r'Active Ingredients:(.*?)(?=Inactive Ingredients:|FORMULATION:|Total weight:|$)'`. -/
def extractMedicinalCore (text : Chars) : List Ingredient :=
  extractFromSectionF "Active Ingredients:".data
    ["Inactive Ingredients:".data, "FORMULATION:".data, "Total weight:".data]
    .medicinal (text.length + 1) text

/-- Strategy pattern `r'Inactive Ingredients:(.*?)(?=Total weight:|$)'`. -/
def extractNonMedicinalCore (text : Chars) : List Ingredient :=
  extractFromSectionF "Inactive Ingredients:".data ["Total weight:".data]
    .non_medicinal (text.length + 1) text

/-- `PDFProcessor._remove_duplicates` seen-set fold. -/
def removeDupAux : List Ingredient → List Chars → List Ingredient
  | [], _ => []
  | i :: rest, seen =>
    if (pyStrip (lowerChars i.name.data)).isEmpty then removeDupAux rest seen
    else if seen.contains (pyStrip (lowerChars i.name.data)) then removeDupAux rest seen
    else i :: removeDupAux rest (pyStrip (lowerChars i.name.data) :: seen)

/-- `PDFProcessor._remove_duplicates`. -/
def remove_duplicates (l : List Ingredient) : List Ingredient := removeDupAux l []

/-- `[A-Za-z0-9\s-]` character class (ASCII). -/
def coaClass (c : Char) : Bool :=
  c.isAlpha || c.isDigit || pyIsSpace c || c == '-'

/-- The group of `r'CERTIFICATE OF ANALYSIS\s*([A-Za-z0-9\s-]+)'` evaluated
on the text `r` following the literal: greedy `\s*` then a nonempty greedy
class run; when no class character follows the whitespace run, `\s*` backs
off one character (itself a class character), so the group becomes that
single whitespace character; if there is neither, the attempt fails. -/
def coaGroup (r : Chars) : Option Chars :=
  match (r.drop (r.takeWhile pyIsSpace).length).takeWhile coaClass with
  | t :: ts => some (t :: ts)
  | [] =>
    match (r.takeWhile pyIsSpace).getLast? with
    | some c => some [c]
    | none => none

/-- `re.search` for the first monograph-title pattern
`r'CERTIFICATE OF ANALYSIS\s*([A-Za-z0-9\s-]+)'` (IGNORECASE; the literal is
23 characters): first position where the literal matches and the group can be
formed; returns group 1. -/
def coaSearch : Chars → Option Chars
  | [] => none
  | c :: cs =>
    if ciStartsWith "CERTIFICATE OF ANALYSIS".data (c :: cs) then
      match coaGroup ((c :: cs).drop 23) with
      | some g => some g
      | none => coaSearch cs
    else coaSearch cs

/-- `[A-Z0-9,'()\s-]` with IGNORECASE: both letter cases (ASCII). -/
def titleClass (c : Char) : Bool :=
  c.isAlpha || c.isDigit || pyIsSpace c ||
    c == ',' || c == '\'' || c == '(' || c == ')' || c == '-'

/-- `re.search` for the second monograph-title pattern
`r'^([A-Z0-9,'()\s-]+(?: - [A-Za-z]+)?)'` (MULTILINE | IGNORECASE): at the
first line start carrying a nonempty greedy class run, group 1 is that run
(the class contains `' '`, so after the maximal run the optional
`(?: - [A-Za-z]+)` group can never match and stays empty). -/
def titleLineSearchAux : Chars → Bool → Option Chars
  | [], _ => none
  | c :: cs, atStart =>
    if atStart then
      match (c :: cs).takeWhile titleClass with
      | t :: ts => some (t :: ts)
      | [] => titleLineSearchAux cs (c = '\n')
    else titleLineSearchAux cs (c = '\n')

def titleLineSearch (text : Chars) : Option Chars := titleLineSearchAux text true

/-- The `for pattern in self.monograph_title_patterns` loop of
`extract_ingredients` (lines 120-128), parametrised by the list of pattern
searchers: on the first match, clean the group; if the cleaned name is longer
than 2 characters and does not contain `'certificate of analysis'`, yield it
as the single medicinal ingredient (the dict has no `'amount'` key);
otherwise try the next pattern. -/
def titleLoop (fs : List (Chars → Option Chars)) (text : Chars) : List Ingredient :=
  match fs with
  | [] => []
  | f :: rest =>
    match f text with
    | some g =>
      if (cleanNameCore g).length > 2 &&
          !containsSub (lowerChars (cleanNameCore g)) "certificate of analysis".data then
        [⟨⟨cleanNameCore g⟩, none, .medicinal⟩]
      else titleLoop rest text
    | none => titleLoop rest text

/-- `PDFProcessor.extract_ingredients`, parametrised by the title-pattern
searchers so that (non-)evaluation of the title strategies is expressible:
run the two formulation-section strategies; if either is non-empty return
their concatenation (deduplicated), otherwise run the title-pattern loop
(deduplicated). -/
def extractIngredientsWith (fs : List (Chars → Option Chars)) (text : Chars) :
    List Ingredient :=
  if extractMedicinalCore text ≠ [] ∨ extractNonMedicinalCore text ≠ [] then
    remove_duplicates (extractMedicinalCore text ++ extractNonMedicinalCore text)
  else remove_duplicates (titleLoop fs text)

/-- The two `monograph_title_patterns` of the source, compiled. -/
def titleStrategies : List (Chars → Option Chars) := [coaSearch, titleLineSearch]

/-- `PDFProcessor.extract_ingredients`. -/
def extract_ingredients (text : String) : List Ingredient :=
  extractIngredientsWith titleStrategies text.data

/-! ## `RAGProcessor.classify_ingredient` (rag_processor.py 42-106, 138-140)

The classifier is modelled as a pure function of an explicit environment:
* `retrieval` stands for `search_similar_documents` (which catches every
  exception internally and returns a list, possibly empty — so retrieval
  failure appears as `[]`);
* `geminiAvailable` is `self.gemini_model is not None` (unset credentials);
* `llm` stands for `generate_content` plus the fenced/bare JSON parse of the
  response, as a function of the name and retrieved documents that determine
  the prompt: `Except.ok` is a successfully parsed verdict dict,
  `Except.error` is a raised transport/parse exception;
* `saveOk` is whether the `_save_cache` file write succeeds (when it raises,
  the blanket `except` in `classify_ingredient` catches it).

Classification-result dicts have a varying key set, so every field of
`Verdict` is optional; `confidence` values are modelled as exact rationals. -/

/-- A classification result dict. -/
structure Verdict where
  cls : Option Int
  classification_text : Option String
  reasoning : Option String
  confidence : Option ℚ
  monograph_found : Option Bool
deriving DecidableEq, Repr

/-- The durable JSON cache: an insertion-ordered name-keyed mapping. -/
abbrev Cache := List (String × Verdict)

def cacheLookup (c : Cache) (n : String) : Option Verdict :=
  (c.find? (·.1 == n)).map (·.2)

/-- Python dict assignment `self.cache[name] = v`: update in place or append. -/
def cacheInsert (c : Cache) (n : String) (v : Verdict) : Cache :=
  if (c.find? (·.1 == n)).isSome then
    c.map fun p => if p.1 == n then (n, v) else p
  else c ++ [(n, v)]

/-- An ingredient as passed to `classify_ingredient`
(`{'name': ..., 'type': ...}`). -/
structure RagIngredient where
  name : String
  type : IngType
deriving DecidableEq, Repr

/-- The environment of external effects consumed by `classify_ingredient`. -/
structure RagEnv where
  retrieval : String → List String
  geminiAvailable : Bool
  llm : String → List String → Except Unit Verdict
  saveOk : Bool

/-- The observable outcome of one `classify_ingredient` call: the returned
dict, the in-memory cache afterwards, how often each external service was
invoked, and whether a durable cache write was attempted. -/
structure ClassifyOutcome where
  result : Verdict
  cache : Cache
  retrievalCalls : Nat
  llmCalls : Nat
  saveAttempted : Bool
deriving DecidableEq, Repr

/-- `cached_result['monograph_found'] = ...` / `result['monograph_found'] = ...`. -/
def setMono (v : Verdict) (b : Bool) : Verdict := { v with monograph_found := some b }

/-- The fixed non-medicinal shortcut dict (rag_processor.py 55; it carries no
`'class'` key). -/
def nonMedicinalVerdict : Verdict :=
  ⟨none, some "Non-medicinal", some "Identified as a non-medicinal excipient.",
    some 0.95, some false⟩

/-- `RAGProcessor._fallback_classification` (rag_processor.py 138-140). -/
def fallback_classification (name : String) (monograph_found : Bool) : Verdict :=
  ⟨some 3, some "Class 3 (Fallback)",
    some ("Gemini AI analysis failed. Defaulting to Class 3 for manual review of '"
      ++ name ++ "'."),
    some 0.1, some monograph_found⟩

/-- `RAGProcessor.classify_ingredient`.  Path order is exactly the source's:
cache hit (with a fresh retrieval for `monograph_found`, mutating the cached
dict in place) → non-medicinal shortcut → retrieval → Gemini-unavailable
fallback → LLM call inside `try`, whose success inserts into the in-memory
cache and writes it to disk; any exception in the `try` block — including a
failing `_save_cache` after the insert — yields the fallback verdict. -/
def classify_ingredient (env : RagEnv) (cache : Cache) (ing : RagIngredient) :
    ClassifyOutcome :=
  match cacheLookup cache ing.name with
  | some v =>
    { result := setMono v (!(env.retrieval ing.name).isEmpty)
      cache := cacheInsert cache ing.name (setMono v (!(env.retrieval ing.name).isEmpty))
      retrievalCalls := 1, llmCalls := 0, saveAttempted := false }
  | none =>
    if ing.type = IngType.non_medicinal then
      { result := nonMedicinalVerdict, cache := cache
        retrievalCalls := 0, llmCalls := 0, saveAttempted := false }
    else
      if !env.geminiAvailable then
        { result := fallback_classification ing.name (!(env.retrieval ing.name).isEmpty)
          cache := cache, retrievalCalls := 1, llmCalls := 0, saveAttempted := false }
      else
        match env.llm ing.name (env.retrieval ing.name) with
        | .ok parsed =>
          if env.saveOk then
            { result := setMono parsed (!(env.retrieval ing.name).isEmpty)
              cache := cacheInsert cache ing.name
                (setMono parsed (!(env.retrieval ing.name).isEmpty))
              retrievalCalls := 1, llmCalls := 1, saveAttempted := true }
          else
            { result := fallback_classification ing.name (!(env.retrieval ing.name).isEmpty)
              cache := cacheInsert cache ing.name
                (setMono parsed (!(env.retrieval ing.name).isEmpty))
              retrievalCalls := 1, llmCalls := 1, saveAttempted := true }
        | .error _ =>
          { result := fallback_classification ing.name (!(env.retrieval ing.name).isEmpty)
            cache := cache, retrievalCalls := 1, llmCalls := 1, saveAttempted := false }

/-! ## Verification helpers (not part of the embedded source) -/

/-- Modelled from the spec: the §4.4 stitcher as a standalone logical-line
pass, with the continuation rule amended to what the code actually does —
join a line ending in `'('` with its successor, drop (possibly joined) lines
containing an ignore phrase.  `_parse_table_section` is proved equal to this
pass followed by a per-line `emitLine`. -/
def stitchSpec : List Chars → List Chars
  | [] => []
  | [l] => if ignoreLine l then [] else [l]
  | l :: l' :: rest =>
    if endsOpenParen l then
      if ignoreLine (l ++ ' ' :: l') then stitchSpec rest
      else (l ++ ' ' :: l') :: stitchSpec rest
    else
      if ignoreLine l then stitchSpec (l' :: rest)
      else l :: stitchSpec (l' :: rest)

/-- Is `c` one of the two parenthesis characters? -/
def isParen (c : Char) : Bool := c == '(' || c == ')'

/-- The subsequence of parenthesis characters of `l` (proof device: the
paren-removal regex only looks at this projection). -/
def parensOf (l : Chars) : Chars := l.filter isParen

/-- Does `l` contain a `'('` with a `')'` somewhere after it?  (Exactly when
the pattern `\s*\([^)]*\)` has a match somewhere in `l`.) -/
def hasPair : Chars → Bool
  | [] => false
  | c :: cs => (c == '(' && cs.contains ')') || hasPair cs

/-! # Theorems -/

/-! ## Classifier claims -/

/-- C2 (amended: the fallback applies on the cache-miss path; a cached name
returns the cached verdict instead): for every medicinal ingredient whose
name is not in the classification cache, when the LLM service is unavailable,
`classify_ingredient` returns the deterministic fallback verdict — `class` 3,
confidence 0.1, reasoning stating the automatic fallback, and
`monograph_found` equal to whether retrieval returned at least one
document. -/
theorem classify_llm_unavailable_fallback (env : RagEnv) (cache : Cache)
    (ing : RagIngredient) (hmiss : cacheLookup cache ing.name = none)
    (hty : ing.type = IngType.medicinal) (hna : env.geminiAvailable = false) :
    (classify_ingredient env cache ing).result =
        fallback_classification ing.name (!(env.retrieval ing.name).isEmpty) ∧
      (classify_ingredient env cache ing).result.cls = some 3 ∧
      (classify_ingredient env cache ing).result.confidence = some 0.1 ∧
      ((classify_ingredient env cache ing).result.monograph_found = some true ↔
        env.retrieval ing.name ≠ []) := by
  have h : classify_ingredient env cache ing =
      { result := fallback_classification ing.name (!(env.retrieval ing.name).isEmpty)
        cache := cache, retrievalCalls := 1, llmCalls := 0, saveAttempted := false } := by
    unfold classify_ingredient
    rw [hmiss, hty, hna]
    simp
  rw [h]
  refine ⟨rfl, rfl, rfl, ?_⟩
  simp [fallback_classification, List.isEmpty_iff]

theorem classify_llm_unavailable_fallback_witness :
    (classify_ingredient ⟨fun _ => ["monograph chunk"], false, fun _ _ => .error (), true⟩
        [] ⟨"Chamomile", IngType.medicinal⟩).result =
        fallback_classification "Chamomile"
          (!((["monograph chunk"] : List String)).isEmpty) ∧
      (classify_ingredient ⟨fun _ => ["monograph chunk"], false, fun _ _ => .error (), true⟩
        [] ⟨"Chamomile", IngType.medicinal⟩).result.cls = some 3 ∧
      (classify_ingredient ⟨fun _ => ["monograph chunk"], false, fun _ _ => .error (), true⟩
        [] ⟨"Chamomile", IngType.medicinal⟩).result.confidence = some 0.1 ∧
      ((classify_ingredient ⟨fun _ => ["monograph chunk"], false, fun _ _ => .error (), true⟩
        [] ⟨"Chamomile", IngType.medicinal⟩).result.monograph_found = some true ↔
        (["monograph chunk"] : List String) ≠ []) :=
  classify_llm_unavailable_fallback
    ⟨fun _ => ["monograph chunk"], false, fun _ _ => .error (), true⟩
    [] ⟨"Chamomile", IngType.medicinal⟩ rfl rfl rfl

/-- C2 counterexample: a medicinal ingredient whose name is already cached
does not get the fallback verdict when the LLM service is unavailable — the
cached verdict (here with confidence 0.9) is returned instead, so the claim
as stated (for every medicinal ingredient) is false. -/
theorem classify_llm_unavailable_cached_overrides :
    (classify_ingredient ⟨fun _ => [], false, fun _ _ => .error (), true⟩
        [("Zinc", ⟨some 1, some "Class 1", some "cached verdict", some 0.9, some true⟩)]
        ⟨"Zinc", IngType.medicinal⟩).result.confidence = some 0.9 ∧
      (classify_ingredient ⟨fun _ => [], false, fun _ _ => .error (), true⟩
        [("Zinc", ⟨some 1, some "Class 1", some "cached verdict", some 0.9, some true⟩)]
        ⟨"Zinc", IngType.medicinal⟩).result ≠
        fallback_classification "Zinc" false := by
  constructor
  · rfl
  · decide

/-- C3 (amended: holds for non-medicinal ingredients whose name is not
already in the classification cache; the cache-membership test precedes the
type check in the source): such an ingredient gets the fixed high-confidence
"Non-medicinal" result with no retrieval call, no LLM call, no cache write
and an unchanged cache, and a second classification of the same ingredient
returns the identical outcome (again with zero external calls). -/
theorem classify_non_medicinal_shortcut (env : RagEnv) (cache : Cache)
    (ing : RagIngredient) (hmiss : cacheLookup cache ing.name = none)
    (hty : ing.type = IngType.non_medicinal) :
    classify_ingredient env cache ing =
        { result := nonMedicinalVerdict, cache := cache
          retrievalCalls := 0, llmCalls := 0, saveAttempted := false } ∧
      classify_ingredient env (classify_ingredient env cache ing).cache ing =
        classify_ingredient env cache ing := by
  have h : classify_ingredient env cache ing =
      { result := nonMedicinalVerdict, cache := cache
        retrievalCalls := 0, llmCalls := 0, saveAttempted := false } := by
    unfold classify_ingredient
    rw [hmiss, hty]
    simp
  refine ⟨h, ?_⟩
  rw [h]
  exact h

theorem classify_non_medicinal_shortcut_witness :
    classify_ingredient ⟨fun _ => ["doc"], true, fun _ _ => .error (), true⟩ []
        ⟨"Talc", IngType.non_medicinal⟩ =
        { result := nonMedicinalVerdict, cache := []
          retrievalCalls := 0, llmCalls := 0, saveAttempted := false } ∧
      classify_ingredient ⟨fun _ => ["doc"], true, fun _ _ => .error (), true⟩
          (classify_ingredient ⟨fun _ => ["doc"], true, fun _ _ => .error (), true⟩ []
            ⟨"Talc", IngType.non_medicinal⟩).cache ⟨"Talc", IngType.non_medicinal⟩ =
        classify_ingredient ⟨fun _ => ["doc"], true, fun _ _ => .error (), true⟩ []
          ⟨"Talc", IngType.non_medicinal⟩ :=
  classify_non_medicinal_shortcut ⟨fun _ => ["doc"], true, fun _ _ => .error (), true⟩ []
    ⟨"Talc", IngType.non_medicinal⟩ rfl rfl

/-- C3 counterexample: a non-medicinal ingredient whose name is in the cache
is served from the cache, and the retrieval service IS invoked — so "for
every non-medicinal ingredient, the fixed result is returned without
consulting cache or retrieval" is false as stated. -/
theorem classify_non_medicinal_cached_consults_retrieval :
    (classify_ingredient ⟨fun _ => ["doc"], true, fun _ _ => .error (), true⟩
        [("Talc", ⟨some 2, some "Class 2", some "stale", some 0.6, some false⟩)]
        ⟨"Talc", IngType.non_medicinal⟩).result ≠ nonMedicinalVerdict ∧
      (classify_ingredient ⟨fun _ => ["doc"], true, fun _ _ => .error (), true⟩
        [("Talc", ⟨some 2, some "Class 2", some "stale", some 0.6, some false⟩)]
        ⟨"Talc", IngType.non_medicinal⟩).retrievalCalls = 1 := by
  constructor
  · decide
  · rfl

/-- C7: for every ingredient whose name is in the classification cache,
`classify_ingredient` returns the cached verdict with every field unchanged
except `monograph_found`, which is recomputed by a fresh retrieval call on
this very call: it is `true` exactly when retrieval returns at least one
document. -/
theorem classify_cache_hit_fresh_monograph (env : RagEnv) (cache : Cache)
    (ing : RagIngredient) (v : Verdict)
    (h : cacheLookup cache ing.name = some v) :
    (classify_ingredient env cache ing).result =
        { v with monograph_found := some (!(env.retrieval ing.name).isEmpty) } ∧
      (classify_ingredient env cache ing).retrievalCalls = 1 ∧
      (classify_ingredient env cache ing).llmCalls = 0 ∧
      ((classify_ingredient env cache ing).result.monograph_found = some true ↔
        env.retrieval ing.name ≠ []) := by
  have hc : classify_ingredient env cache ing =
      { result := setMono v (!(env.retrieval ing.name).isEmpty)
        cache := cacheInsert cache ing.name (setMono v (!(env.retrieval ing.name).isEmpty))
        retrievalCalls := 1, llmCalls := 0, saveAttempted := false } := by
    unfold classify_ingredient
    rw [h]
  rw [hc]
  refine ⟨rfl, rfl, rfl, ?_⟩
  simp [setMono, List.isEmpty_iff]

theorem classify_cache_hit_fresh_monograph_witness :
    (classify_ingredient ⟨fun _ => ["fresh doc"], true, fun _ _ => .error (), true⟩
        [("Rosehip", ⟨some 1, some "Class 1", some "as cached", some 0.8, some false⟩)]
        ⟨"Rosehip", IngType.medicinal⟩).result =
        { (⟨some 1, some "Class 1", some "as cached", some 0.8, some false⟩ : Verdict) with
            monograph_found := some (!(["fresh doc"] : List String).isEmpty) } ∧
      (classify_ingredient ⟨fun _ => ["fresh doc"], true, fun _ _ => .error (), true⟩
        [("Rosehip", ⟨some 1, some "Class 1", some "as cached", some 0.8, some false⟩)]
        ⟨"Rosehip", IngType.medicinal⟩).retrievalCalls = 1 ∧
      (classify_ingredient ⟨fun _ => ["fresh doc"], true, fun _ _ => .error (), true⟩
        [("Rosehip", ⟨some 1, some "Class 1", some "as cached", some 0.8, some false⟩)]
        ⟨"Rosehip", IngType.medicinal⟩).llmCalls = 0 ∧
      ((classify_ingredient ⟨fun _ => ["fresh doc"], true, fun _ _ => .error (), true⟩
        [("Rosehip", ⟨some 1, some "Class 1", some "as cached", some 0.8, some false⟩)]
        ⟨"Rosehip", IngType.medicinal⟩).result.monograph_found = some true ↔
        (["fresh doc"] : List String) ≠ []) :=
  classify_cache_hit_fresh_monograph
    ⟨fun _ => ["fresh doc"], true, fun _ _ => .error (), true⟩
    [("Rosehip", ⟨some 1, some "Class 1", some "as cached", some 0.8, some false⟩)]
    ⟨"Rosehip", IngType.medicinal⟩ ⟨some 1, some "Class 1", some "as cached", some 0.8, some false⟩ rfl

/-- C4 (demonstrating the code bug): when the durable cache write fails after
a successful LLM classification, the blanket `except` of
`classify_ingredient` swallows the exception and returns the ordinary
fallback verdict — no error reaches the caller, while the in-memory cache
still retains the freshly inserted entry.  The spec requires a persistence
failure to propagate. -/
theorem classify_save_failure_swallowed (env : RagEnv) (cache : Cache)
    (ing : RagIngredient) (v : Verdict)
    (hmiss : cacheLookup cache ing.name = none)
    (hty : ing.type = IngType.medicinal)
    (hav : env.geminiAvailable = true)
    (hok : env.llm ing.name (env.retrieval ing.name) = .ok v)
    (hsave : env.saveOk = false) :
    (classify_ingredient env cache ing).result =
        fallback_classification ing.name (!(env.retrieval ing.name).isEmpty) ∧
      (classify_ingredient env cache ing).cache =
        cacheInsert cache ing.name (setMono v (!(env.retrieval ing.name).isEmpty)) := by
  unfold classify_ingredient
  rw [hmiss, hty, hav, hok, hsave]
  simp

theorem classify_save_failure_swallowed_witness :
    (classify_ingredient
        ⟨fun _ => [], true,
          fun _ _ => .ok ⟨some 1, some "Class 1", some "parsed", some 1, none⟩, false⟩
        [] ⟨"Fennel", IngType.medicinal⟩).result =
        fallback_classification "Fennel" (!([] : List String).isEmpty) ∧
      (classify_ingredient
        ⟨fun _ => [], true,
          fun _ _ => .ok ⟨some 1, some "Class 1", some "parsed", some 1, none⟩, false⟩
        [] ⟨"Fennel", IngType.medicinal⟩).cache =
        cacheInsert [] "Fennel"
          (setMono ⟨some 1, some "Class 1", some "parsed", some 1, none⟩
            (!([] : List String).isEmpty)) :=
  classify_save_failure_swallowed
    ⟨fun _ => [], true,
      fun _ _ => .ok ⟨some 1, some "Class 1", some "parsed", some 1, none⟩, false⟩
    [] ⟨"Fennel", IngType.medicinal⟩ ⟨some 1, some "Class 1", some "parsed", some 1, none⟩
    rfl rfl rfl rfl rfl

/-- C10: off the LLM-success path — on the non-medicinal shortcut, when the
LLM service is unavailable, or when the LLM call or its JSON parse fails
(retrieval failures never raise: `search_similar_documents` returns `[]`) —
`classify_ingredient` for an uncached name writes nothing: no save is
attempted, the cache mapping is unchanged, and a later call for the same
ingredient repeats the very same outcome. -/
theorem classify_no_cache_write_off_success_path (env : RagEnv) (cache : Cache)
    (ing : RagIngredient) (hmiss : cacheLookup cache ing.name = none)
    (hpath : ing.type = IngType.non_medicinal ∨ env.geminiAvailable = false ∨
      env.llm ing.name (env.retrieval ing.name) = .error ()) :
    (classify_ingredient env cache ing).cache = cache ∧
      (classify_ingredient env cache ing).saveAttempted = false ∧
      classify_ingredient env (classify_ingredient env cache ing).cache ing =
        classify_ingredient env cache ing := by
  have h : (classify_ingredient env cache ing).cache = cache ∧
      (classify_ingredient env cache ing).saveAttempted = false := by
    unfold classify_ingredient
    rw [hmiss]
    by_cases h2 : ing.type = IngType.non_medicinal
    · simp [h2]
    · rcases hpath with hp | hp | hp
      · exact absurd hp h2
      · simp [h2, hp]
      · by_cases h3 : env.geminiAvailable
        · simp [h2, h3, hp]
        · simp [h2, h3]
  refine ⟨h.1, h.2, ?_⟩
  rw [h.1]

theorem classify_no_cache_write_off_success_path_witness :
    (classify_ingredient ⟨fun _ => ["doc"], true, fun _ _ => .error (), true⟩ []
        ⟨"Nettle", IngType.medicinal⟩).cache = [] ∧
      (classify_ingredient ⟨fun _ => ["doc"], true, fun _ _ => .error (), true⟩ []
        ⟨"Nettle", IngType.medicinal⟩).saveAttempted = false ∧
      classify_ingredient ⟨fun _ => ["doc"], true, fun _ _ => .error (), true⟩
          (classify_ingredient ⟨fun _ => ["doc"], true, fun _ _ => .error (), true⟩ []
            ⟨"Nettle", IngType.medicinal⟩).cache ⟨"Nettle", IngType.medicinal⟩ =
        classify_ingredient ⟨fun _ => ["doc"], true, fun _ _ => .error (), true⟩ []
          ⟨"Nettle", IngType.medicinal⟩ :=
  classify_no_cache_write_off_success_path
    ⟨fun _ => ["doc"], true, fun _ _ => .error (), true⟩ []
    ⟨"Nettle", IngType.medicinal⟩ rfl (Or.inr (Or.inr rfl))

/-! ## Extraction-cascade claims -/

/-- C1: the cascade commits to the formulation-section strategies — whenever
the `Active Ingredients:` / `Inactive Ingredients:` strategies yield at least
one ingredient, `extract_ingredients` returns exactly their deduplicated
concatenation, for EVERY choice of title-pattern searchers: the result does
not depend on the title strategies at all, i.e. they are never evaluated;
conversely they can contribute only when both earlier strategies returned
empty. -/
theorem extract_commits_to_first_nonempty_strategy
    (fs : List (Chars → Option Chars)) (text : Chars)
    (h : extractMedicinalCore text ≠ [] ∨ extractNonMedicinalCore text ≠ []) :
    extractIngredientsWith fs text =
      remove_duplicates (extractMedicinalCore text ++ extractNonMedicinalCore text) := by
  unfold extractIngredientsWith
  rw [if_pos h]

theorem extract_commits_to_first_nonempty_strategy_witness :
    extractMedicinalCore "Active Ingredients:\nGinger Root".data ≠ [] ∧
      extractIngredientsWith [fun _ => some "Echinacea Extract".data]
          "Active Ingredients:\nGinger Root".data =
        remove_duplicates
          (extractMedicinalCore "Active Ingredients:\nGinger Root".data ++
            extractNonMedicinalCore "Active Ingredients:\nGinger Root".data) :=
  ⟨by decide,
    extract_commits_to_first_nonempty_strategy [fun _ => some "Echinacea Extract".data]
      "Active Ingredients:\nGinger Root".data (Or.inl (by decide))⟩

/-- C8: the formulation fixture extracts exactly Vitamin C (medicinal,
amount "500 mg") followed by Microcrystalline Cellulose (non-medicinal, no
amount). -/
theorem extract_formulation_scenario :
    extract_ingredients
        "Active Ingredients:\nVitamin C   500   mg\nInactive Ingredients:\nMicrocrystalline Cellulose" =
      [⟨"Vitamin C", some "500 mg", IngType.medicinal⟩,
       ⟨"Microcrystalline Cellulose", none, IngType.non_medicinal⟩] := by
  decide

/-! ## Table-section parsing claims -/

theorem parseLinesAux_eq_stitch (ty : IngType) :
    ∀ ls : List Chars, parseLinesAux ty ls = (stitchSpec ls).filterMap (emitLine ty)
  | [] => by simp [parseLinesAux, stitchSpec]
  | [l] => by
    by_cases h : ignoreLine l = true
    · simp [parseLinesAux, stitchSpec, h]
    · rcases he : emitLine ty l with _ | j <;>
        simp [parseLinesAux, stitchSpec, h, he]
  | l :: l' :: rest => by
    by_cases h1 : endsOpenParen l = true
    · by_cases h2 : ignoreLine (l ++ ' ' :: l') = true
      · simpa [parseLinesAux, stitchSpec, h1, h2] using parseLinesAux_eq_stitch ty rest
      · rcases he : emitLine ty (l ++ ' ' :: l') with _ | j <;>
          simp [parseLinesAux, stitchSpec, h1, h2, he, parseLinesAux_eq_stitch ty rest]
    · by_cases h2 : ignoreLine l = true
      · simpa [parseLinesAux, stitchSpec, h1, h2] using
          parseLinesAux_eq_stitch ty (l' :: rest)
      · rcases he : emitLine ty l with _ | j <;>
          simp [parseLinesAux, stitchSpec, h1, h2, he,
            parseLinesAux_eq_stitch ty (l' :: rest)]

theorem stitchSpec_not_ignored :
    ∀ ls : List Chars, ∀ l ∈ stitchSpec ls, ignoreLine l = false
  | [] => by simp [stitchSpec]
  | [l] => by
    by_cases h : ignoreLine l = true <;> simp [stitchSpec, h]
  | l :: l' :: rest => by
    intro x hx
    by_cases h1 : endsOpenParen l = true
    · by_cases h2 : ignoreLine (l ++ ' ' :: l') = true
      · exact stitchSpec_not_ignored rest x (by simpa [stitchSpec, h1, h2] using hx)
      · rw [stitchSpec, if_pos h1, if_neg h2] at hx
        rcases List.mem_cons.mp hx with hx | hx
        · subst hx; simpa using h2
        · exact stitchSpec_not_ignored rest x hx
    · by_cases h2 : ignoreLine l = true
      · exact stitchSpec_not_ignored (l' :: rest) x
          (by simpa [stitchSpec, h1, h2] using hx)
      · rw [stitchSpec, if_neg h1, if_neg h2] at hx
        rcases List.mem_cons.mp hx with hx | hx
        · subst hx; simpa using h2
        · exact stitchSpec_not_ignored (l' :: rest) x hx

/-- C9 (amended: the code's continuation rule joins a physical line to its
successor exactly when the line ends with `'('`; lines containing one of the
noise phrases — including any line mentioning a column label such as
`mg/tablet` or `% by weight`, each individually — are dropped after
stitching; lowercase-starting lines and short parentheticals are NOT
treated as continuations): `_parse_table_section` equals the standalone
stitch-then-parse pass, and no dropped-phrase line survives stitching. -/
theorem parse_table_section_is_stitch_then_parse (ty : IngType) (sec : Chars) :
    parseTableSectionCore ty sec =
        (stitchSpec (sectionLines sec)).filterMap (emitLine ty) ∧
      ∀ l ∈ stitchSpec (sectionLines sec), ignoreLine l = false :=
  ⟨parseLinesAux_eq_stitch ty (sectionLines sec),
   stitchSpec_not_ignored (sectionLines sec)⟩

theorem parse_table_section_is_stitch_then_parse_witness :
    parseTableSectionCore IngType.medicinal "Fennel\nSilica".data =
        (stitchSpec (sectionLines "Fennel\nSilica".data)).filterMap
          (emitLine IngType.medicinal) ∧
      ignoreLine "Fennel".data = false :=
  ⟨(parse_table_section_is_stitch_then_parse IngType.medicinal "Fennel\nSilica".data).1,
   (parse_table_section_is_stitch_then_parse IngType.medicinal "Fennel\nSilica".data).2
     "Fennel".data (by decide)⟩

/-- C9 counterexample: a line starting with a lowercase character is NOT
appended to the preceding logical line — `"Alpha\nbeta gamma"` parses as two
separate ingredients, not as the single stitched ingredient
`"Alpha beta gamma"` the claim would imply. -/
theorem lowercase_line_not_stitched :
    parse_table_section "Alpha\nbeta gamma" IngType.medicinal =
        [⟨"Alpha", none, IngType.medicinal⟩, ⟨"beta gamma", none, IngType.medicinal⟩] ∧
      parse_table_section "Alpha\nbeta gamma" IngType.medicinal ≠
        [⟨"Alpha beta gamma", none, IngType.medicinal⟩] := by
  decide

theorem emitLine_name_length {ty : IngType} {l : Chars} {i : Ingredient}
    (h : emitLine ty l = some i) : 3 ≤ i.name.length := by
  unfold emitLine at h
  split at h
  · split at h
    next hlen =>
      rw [← Option.some.inj h]
      exact hlen
    next => exact absurd h (by simp)
  · split at h
    next hlen =>
      rw [← Option.some.inj h]
      exact hlen
    next => exact absurd h (by simp)

theorem parseLinesAux_mem_emit (ty : IngType) :
    ∀ ls : List Chars, ∀ i : Ingredient, i ∈ parseLinesAux ty ls →
      ∃ l, emitLine ty l = some i
  | [] => by simp [parseLinesAux]
  | [l] => by
    intro i hi
    by_cases h : ignoreLine l = true
    · simp [parseLinesAux, h] at hi
    · rcases he : emitLine ty l with _ | j
      · simp [parseLinesAux, h, he] at hi
      · simp [parseLinesAux, h, he] at hi
        exact ⟨l, by rw [he, hi]⟩
  | l :: l' :: rest => by
    intro i hi
    by_cases h1 : endsOpenParen l = true
    · by_cases h2 : ignoreLine (l ++ ' ' :: l') = true
      · exact parseLinesAux_mem_emit ty rest i
          (by simpa [parseLinesAux, h1, h2] using hi)
      · rcases he : emitLine ty (l ++ ' ' :: l') with _ | j
        · exact parseLinesAux_mem_emit ty rest i
            (by simpa [parseLinesAux, h1, h2, he] using hi)
        · rw [parseLinesAux, if_pos h1, if_neg h2, he] at hi
          rcases List.mem_cons.mp hi with hi | hi
          · exact ⟨l ++ ' ' :: l', by rw [he, hi]⟩
          · exact parseLinesAux_mem_emit ty rest i hi
    · by_cases h2 : ignoreLine l = true
      · exact parseLinesAux_mem_emit ty (l' :: rest) i
          (by simpa [parseLinesAux, h1, h2] using hi)
      · rcases he : emitLine ty l with _ | j
        · exact parseLinesAux_mem_emit ty (l' :: rest) i
            (by simpa [parseLinesAux, h1, h2, he] using hi)
        · rw [parseLinesAux, if_neg h1, if_neg h2, he] at hi
          rcases List.mem_cons.mp hi with hi | hi
          · exact ⟨l, by rw [he, hi]⟩
          · exact parseLinesAux_mem_emit ty (l' :: rest) i hi

/-- C5 (amended: only the minimum-length half of the claim holds — every
ingredient produced from a table section has a name of at least 3
characters; there is NO token-count bound in the code): every parsed
ingredient's cleaned name is at least 3 characters long. -/
theorem parsed_names_at_least_three_chars (ty : IngType) (sec : Chars)
    (i : Ingredient) (h : i ∈ parseTableSectionCore ty sec) :
    3 ≤ i.name.length := by
  obtain ⟨l, hl⟩ := parseLinesAux_mem_emit ty (sectionLines sec) i h
  exact emitLine_name_length hl

theorem parsed_names_at_least_three_chars_witness :
    (⟨"Ginger Root", none, IngType.medicinal⟩ : Ingredient) ∈
        parseTableSectionCore IngType.medicinal "Ginger Root".data ∧
      3 ≤ (Ingredient.mk "Ginger Root" none IngType.medicinal).name.length :=
  ⟨by decide,
   parsed_names_at_least_three_chars IngType.medicinal "Ginger Root".data
     ⟨"Ginger Root", none, IngType.medicinal⟩ (by decide)⟩

/-- C5 counterexample: sanitization imposes no 7-token bound — an
eight-token candidate line is accepted verbatim as an ingredient name. -/
theorem sanitize_has_no_token_bound :
    parse_table_section "a1 b2 c3 d4 e5 f6 g7 h8" IngType.medicinal =
        [⟨"a1 b2 c3 d4 e5 f6 g7 h8", none, IngType.medicinal⟩] ∧
      (pySplit "a1 b2 c3 d4 e5 f6 g7 h8".data).length = 8 := by
  decide

/-- C6 counterexample: `_clean_text` is not idempotent — removing a page
marker can leave a double space that only a second pass collapses:
`normalize("a --- Page 1 --- b")` is `"a  b"`, whose normalization is
`"a b"`. -/
theorem normalize_not_idempotent :
    clean_text (clean_text "a --- Page 1 --- b") ≠ clean_text "a --- Page 1 --- b" := by
  decide

/-! ## Idempotence of `_clean_ingredient_name`

The paren-removal `re.sub` only creates output whose every remaining `'('`
has no later `')'` (`hasPair = false`), such strings are fixed points of the
removal, and whitespace normalisation neither looks at parentheses (it
preserves the `parensOf` projection) nor changes the token decomposition of
its own output. -/

theorem parenMatch_length {l t : Chars} (h : parenMatch l = some t) :
    t.length + 2 ≤ l.length := by
  unfold parenMatch at h
  split at h
  next rest h1 =>
    split at h
    next tail h2 =>
      have ht : tail = t := by simpa using h
      subst ht
      have hr2 : (rest.dropWhile (fun c => !(c == ')'))).length ≤ rest.length :=
        (List.dropWhile_suffix _).length_le
      have hr1 : (l.dropWhile pyIsSpace).length ≤ l.length :=
        (List.dropWhile_suffix _).length_le
      rw [h2] at hr2
      rw [h1] at hr1
      simp only [List.length_cons] at hr1 hr2
      omega
    next => exact absurd h (by simp)
  next => exact absurd h (by simp)

theorem parenMatch_sublist {l t : Chars} (h : parenMatch l = some t) : t.Sublist l := by
  unfold parenMatch at h
  split at h
  next rest h1 =>
    split at h
    next tail h2 =>
      have ht : tail = t := by simpa using h
      have s1 : ('(' :: rest : Chars) <:+ l := h1 ▸ List.dropWhile_suffix _
      have s2 : (')' :: tail : Chars) <:+ rest := h2 ▸ List.dropWhile_suffix _
      have s3 : tail <:+ l :=
        ((List.suffix_cons ')' tail).trans s2).trans
          ((List.suffix_cons '(' rest).trans s1)
      exact ht ▸ s3.sublist
    next => exact absurd h (by simp)
  next => exact absurd h (by simp)

theorem subParensF_sublist : ∀ n l, (subParensF n l).Sublist l := by
  intro n
  induction n with
  | zero =>
    intro l
    cases l <;> simp [subParensF]
  | succ n ih =>
    intro l
    cases l with
    | nil => simp [subParensF]
    | cons c cs =>
      rcases hm : parenMatch (c :: cs) with _ | tail
      · simpa [subParensF, hm] using List.Sublist.cons₂ c (ih cs)
      · simpa [subParensF, hm] using (ih tail).trans (parenMatch_sublist hm)

theorem subParens_sublist (l : Chars) : (subParens l).Sublist l := subParensF_sublist l.length l

theorem pyStrip_sublist (l : Chars) : (pyStrip l).Sublist l := by
  unfold pyStrip
  have h1 : (l.dropWhile pyIsSpace).Sublist l := List.dropWhile_sublist _
  have h2 : ((l.dropWhile pyIsSpace).reverse.dropWhile pyIsSpace).Sublist
      (l.dropWhile pyIsSpace).reverse := List.dropWhile_sublist _
  have h3 := h2.reverse
  rw [List.reverse_reverse] at h3
  exact h3.trans h1

theorem contains_iff_mem {l : Chars} {a : Char} : l.contains a = true ↔ a ∈ l :=
  List.elem_iff

theorem contains_eq_false_of_sublist {s l : Chars} {a : Char} (hs : s.Sublist l)
    (h : l.contains a = false) : s.contains a = false := by
  by_contra hc
  rw [Bool.not_eq_false] at hc
  have hm : a ∈ l := hs.subset (contains_iff_mem.mp hc)
  rw [contains_iff_mem.mpr hm] at h
  cases h

theorem hasPair_true_of_sublist {s l : Chars} (hs : s.Sublist l)
    (h : hasPair s = true) : hasPair l = true := by
  induction hs with
  | slnil => exact h
  | cons a _ ih =>
    rw [hasPair, ih h]
    simp
  | cons₂ a hs' ih =>
    rw [hasPair] at h ⊢
    rcases Bool.or_eq_true_iff.mp h with h' | h'
    · rcases Bool.and_eq_true_iff.mp h' with ⟨ha, hmem⟩
      have hml := hs'.subset (contains_iff_mem.mp hmem)
      rw [ha, contains_iff_mem.mpr hml]
      simp
    · rw [ih h']
      simp

theorem hasPair_false_of_sublist {s l : Chars} (hs : s.Sublist l)
    (h : hasPair l = false) : hasPair s = false := by
  by_contra hc
  rw [Bool.not_eq_false] at hc
  rw [hasPair_true_of_sublist hs hc] at h
  cases h

theorem contains_parensOf (l : Chars) :
    (parensOf l).contains ')' = l.contains ')' := by
  by_cases h : (')' : Char) ∈ l
  · have h2 : (')' : Char) ∈ parensOf l :=
      List.mem_filter.mpr ⟨h, by decide⟩
    rw [contains_iff_mem.mpr h, contains_iff_mem.mpr h2]
  · have h2 : (')' : Char) ∉ parensOf l := fun hm => h (List.mem_filter.mp hm).1
    have e1 : (parensOf l).contains ')' = false := by
      by_contra hc
      rw [Bool.not_eq_false] at hc
      exact h2 (contains_iff_mem.mp hc)
    have e2 : l.contains ')' = false := by
      by_contra hc
      rw [Bool.not_eq_false] at hc
      exact h (contains_iff_mem.mp hc)
    rw [e1, e2]

theorem hasPair_eq_parensOf (l : Chars) : hasPair l = hasPair (parensOf l) := by
  induction l with
  | nil => rfl
  | cons c cs ih =>
    by_cases hp : isParen c = true
    · have hfil : parensOf (c :: cs) = c :: parensOf cs := by
        simp [parensOf, List.filter_cons, hp]
      rw [hfil, hasPair, hasPair, contains_parensOf, ih]
    · have hfil : parensOf (c :: cs) = parensOf cs := by
        simp [parensOf, List.filter_cons, hp]
      have hc : (c == '(') = false := by
        rw [Bool.eq_false_iff]
        intro hb
        rw [isParen, hb] at hp
        simp at hp
      rw [hfil, hasPair, hc, ih]
      simp

theorem hasPair_congr {l m : Chars} (h : parensOf l = parensOf m) :
    hasPair l = hasPair m := by
  rw [hasPair_eq_parensOf l, hasPair_eq_parensOf m, h]

theorem hasPair_of_parenMatch {l t : Chars} (h : parenMatch l = some t) :
    hasPair l = true := by
  unfold parenMatch at h
  split at h
  next rest h1 =>
    split at h
    next tail h2 =>
      have hsub : (')' :: tail : Chars) <:+ rest := h2 ▸ List.dropWhile_suffix _
      have hmem : (')' : Char) ∈ rest := hsub.sublist.subset (by simp)
      have hp : hasPair ('(' :: rest) = true := by
        rw [hasPair, contains_iff_mem.mpr hmem]
        simp
      have hdw : ('(' :: rest : Chars) <:+ l := h1 ▸ List.dropWhile_suffix _
      exact hasPair_true_of_sublist hdw.sublist hp
    next => exact absurd h (by simp)
  next => exact absurd h (by simp)

theorem parenMatch_none_of_no_pair {l : Chars} (h : hasPair l = false) :
    parenMatch l = none := by
  rcases hm : parenMatch l with _ | t
  · rfl
  · rw [hasPair_of_parenMatch hm] at h
    cases h

theorem dropClose_of_contains :
    ∀ cs : Chars, cs.contains ')' = true →
      ∃ ds, cs.dropWhile (fun c => !(c == ')')) = ')' :: ds
  | [], h => absurd h (by simp)
  | c :: cs, h => by
    by_cases hc : c = ')'
    · subst hc
      exact ⟨cs, by simp [List.dropWhile_cons]⟩
    · have h2 : cs.contains ')' = true := by
        rcases List.mem_cons.mp (contains_iff_mem.mp h) with he | hm'
        · exact absurd he.symm hc
        · exact contains_iff_mem.mpr hm'
      obtain ⟨ds, hds⟩ := dropClose_of_contains cs h2
      refine ⟨ds, ?_⟩
      rw [List.dropWhile_cons, if_pos (by simp [hc]), hds]

theorem parenMatch_cons_open_none {cs : Chars}
    (h : parenMatch ('(' :: cs) = none) : cs.contains ')' = false := by
  by_contra hc
  rw [Bool.not_eq_false] at hc
  obtain ⟨ds, hds⟩ := dropClose_of_contains cs hc
  have h1 : List.dropWhile pyIsSpace ('(' :: cs) = '(' :: cs := by
    rw [List.dropWhile_cons]
    simp [pyIsSpace]
  have : parenMatch ('(' :: cs) = some ds := by
    simp [parenMatch, h1, hds]
  rw [this] at h
  cases h

theorem hasPair_subParensF :
    ∀ n, ∀ l : Chars, l.length ≤ n → hasPair (subParensF n l) = false := by
  intro n
  induction n with
  | zero =>
    intro l hl
    have : l = [] := List.length_eq_zero.mp (Nat.le_zero.mp hl)
    subst this
    rfl
  | succ n ih =>
    intro l hl
    cases l with
    | nil => rfl
    | cons c cs =>
      rcases hm : parenMatch (c :: cs) with _ | tail
      · rw [subParensF]
        simp only [hm]
        rw [hasPair]
        have ht : hasPair (subParensF n cs) = false := by
          apply ih
          simp only [List.length_cons] at hl
          omega
        rw [ht]
        by_cases hc : c = '('
        · subst hc
          have hnc : cs.contains ')' = false := parenMatch_cons_open_none hm
          have : (subParensF n cs).contains ')' = false :=
            contains_eq_false_of_sublist (subParensF_sublist n cs) hnc
          rw [this]
          simp
        · have : (c == '(') = false := by
            rw [Bool.eq_false_iff]
            intro hb
            exact hc (by simpa using hb)
          rw [this]
          simp
      · rw [subParensF]
        simp only [hm]
        apply ih
        have := parenMatch_length hm
        simp only [List.length_cons] at this hl
        omega

theorem subParensF_eq_self_of_no_pair :
    ∀ n, ∀ l : Chars, hasPair l = false → subParensF n l = l := by
  intro n
  induction n with
  | zero =>
    intro l _
    cases l <;> rfl
  | succ n ih =>
    intro l hl
    cases l with
    | nil => rfl
    | cons c cs =>
      rw [subParensF, parenMatch_none_of_no_pair hl]
      have hcs : hasPair cs = false := by
        rw [hasPair] at hl
        exact (Bool.or_eq_false_iff.mp hl).2
      rw [ih cs hcs]

theorem hasPair_subParens (l : Chars) : hasPair (subParens l) = false :=
  hasPair_subParensF l.length l le_rfl

theorem subParens_eq_self {l : Chars} (h : hasPair l = false) : subParens l = l :=
  subParensF_eq_self_of_no_pair l.length l h

theorem pySplitAux_good :
    ∀ l acc : Chars, (∀ c ∈ acc, pyIsSpace c = false) →
      ∀ t ∈ pySplitAux l acc, t ≠ [] ∧ ∀ c ∈ t, pyIsSpace c = false
  | [], acc, hacc => by
    intro t ht
    rw [pySplitAux] at ht
    by_cases hae : acc = []
    · rw [if_pos hae] at ht
      cases ht
    · rw [if_neg hae] at ht
      rcases List.mem_singleton.mp ht with rfl
      refine ⟨by simpa using hae, ?_⟩
      intro c' hc'
      exact hacc c' (List.mem_reverse.mp hc')
  | c :: cs, acc, hacc => by
    intro t ht
    rw [pySplitAux] at ht
    by_cases hws : pyIsSpace c = true
    · rw [if_pos hws] at ht
      by_cases hae : acc = []
      · rw [if_pos hae] at ht
        exact pySplitAux_good cs [] (by simp) t ht
      · rw [if_neg hae] at ht
        rcases List.mem_cons.mp ht with rfl | ht'
        · refine ⟨by simpa using hae, ?_⟩
          intro c' hc'
          exact hacc c' (List.mem_reverse.mp hc')
        · exact pySplitAux_good cs [] (by simp) t ht'
    · rw [if_neg hws] at ht
      refine pySplitAux_good cs (c :: acc) ?_ t ht
      intro c' hc'
      rcases List.mem_cons.mp hc' with rfl | h'
      · simpa using hws
      · exact hacc c' h'

theorem pySplitAux_token :
    ∀ t acc J : Chars, (∀ c ∈ t, pyIsSpace c = false) → (t ≠ [] ∨ acc ≠ []) →
      pySplitAux (t ++ ' ' :: J) acc = (acc.reverse ++ t) :: pySplitAux J []
  | [], acc, J, _, hne => by
    rcases hne with hne | hne
    · exact absurd rfl hne
    · rw [List.nil_append, pySplitAux, if_pos (by decide), if_neg hne, List.append_nil]
  | c :: t', acc, J, hgood, _ => by
    have hcs : pyIsSpace c = false := hgood c (by simp)
    rw [List.cons_append, pySplitAux, if_neg (by simp [hcs])]
    rw [pySplitAux_token t' (c :: acc) J (fun c' hc' => hgood c' (by simp [hc']))
      (Or.inr (by simp))]
    simp [List.append_assoc]

theorem pySplitAux_no_ws :
    ∀ t acc : Chars, (∀ c ∈ t, pyIsSpace c = false) →
      pySplitAux t acc = if acc.reverse ++ t = [] then [] else [acc.reverse ++ t]
  | [], acc, _ => by
    rw [pySplitAux, List.append_nil]
    by_cases hae : acc = []
    · subst hae; simp
    · rw [if_neg hae, if_neg (by simpa using hae)]
  | c :: t', acc, hgood => by
    have hcs : pyIsSpace c = false := hgood c (by simp)
    rw [pySplitAux, if_neg (by simp [hcs])]
    rw [pySplitAux_no_ws t' (c :: acc) (fun c' hc' => hgood c' (by simp [hc']))]
    have he : (c :: acc).reverse ++ t' = acc.reverse ++ c :: t' := by
      simp [List.append_assoc]
    rw [he]

theorem pySplit_joinSpaces :
    ∀ ts : List Chars, (∀ t ∈ ts, t ≠ [] ∧ ∀ c ∈ t, pyIsSpace c = false) →
      pySplit (joinSpaces ts) = ts
  | [], _ => rfl
  | [t], hgood => by
    rw [joinSpaces, pySplit, pySplitAux_no_ws t [] (hgood t (by simp)).2]
    rw [List.reverse_nil, List.nil_append, if_neg (hgood t (by simp)).1]
  | t :: t' :: ts, hgood => by
    rw [joinSpaces, pySplit,
      pySplitAux_token t [] (joinSpaces (t' :: ts)) (hgood t (by simp)).2
        (Or.inl (hgood t (by simp)).1)]
    rw [List.reverse_nil, List.nil_append]
    congr 1
    exact pySplit_joinSpaces (t' :: ts) (fun u hu => hgood u (by simp [hu]))

theorem pySplit_normSpace (l : Chars) : pySplit (normSpace l) = pySplit l := by
  unfold normSpace
  exact pySplit_joinSpaces (pySplit l) (pySplitAux_good l [] (by simp))

theorem pySplitAux_all_ws :
    ∀ t acc : Chars, (∀ c ∈ t, pyIsSpace c = true) →
      pySplitAux t acc = pySplitAux [] acc
  | [], _, _ => rfl
  | c :: t', acc, hws => by
    conv_lhs => rw [pySplitAux]
    rw [if_pos (hws c (by simp))]
    by_cases hae : acc = []
    · rw [if_pos hae, pySplitAux_all_ws t' [] (fun c' hc' => hws c' (by simp [hc']))]
      subst hae
      rfl
    · rw [if_neg hae, pySplitAux_all_ws t' [] (fun c' hc' => hws c' (by simp [hc']))]
      simp [pySplitAux, hae]

theorem pySplitAux_trailing_ws :
    ∀ w t acc : Chars, (∀ c ∈ t, pyIsSpace c = true) →
      pySplitAux (w ++ t) acc = pySplitAux w acc
  | [], t, acc, hws => by
    rw [List.nil_append]
    exact pySplitAux_all_ws t acc hws
  | c :: w', t, acc, hws => by
    rw [List.cons_append]
    simp only [pySplitAux]
    by_cases hc : pyIsSpace c = true
    · rw [if_pos hc, if_pos hc]
      by_cases hae : acc = []
      · rw [if_pos hae, if_pos hae, pySplitAux_trailing_ws w' t [] hws]
      · rw [if_neg hae, if_neg hae, pySplitAux_trailing_ws w' t [] hws]
    · rw [if_neg hc, if_neg hc, pySplitAux_trailing_ws w' t (c :: acc) hws]

theorem pySplit_dropWhile_ws :
    ∀ l : Chars, pySplit (l.dropWhile pyIsSpace) = pySplit l
  | [] => rfl
  | c :: cs => by
    rw [List.dropWhile_cons]
    by_cases hc : pyIsSpace c = true
    · rw [if_pos hc, pySplit_dropWhile_ws cs]
      show pySplit cs = pySplit (c :: cs)
      simp [pySplit, pySplitAux, hc]
    · rw [if_neg hc]

theorem pySplit_pyStrip (l : Chars) : pySplit (pyStrip l) = pySplit l := by
  have hws : ∀ c ∈ ((l.dropWhile pyIsSpace).reverse.takeWhile pyIsSpace).reverse,
      pyIsSpace c = true := by
    intro c hc
    exact List.mem_takeWhile_imp (List.mem_reverse.mp hc)
  have h1 : pySplit (pyStrip l ++
      ((l.dropWhile pyIsSpace).reverse.takeWhile pyIsSpace).reverse) =
      pySplit (pyStrip l) :=
    pySplitAux_trailing_ws (pyStrip l)
      ((l.dropWhile pyIsSpace).reverse.takeWhile pyIsSpace).reverse [] hws
  have h2 : pyStrip l ++ ((l.dropWhile pyIsSpace).reverse.takeWhile pyIsSpace).reverse
      = l.dropWhile pyIsSpace := by
    unfold pyStrip
    rw [← List.reverse_append, List.takeWhile_append_dropWhile, List.reverse_reverse]
  rw [h2] at h1
  rw [← h1]
  exact pySplit_dropWhile_ws l

theorem pySplitAux_foldr :
    ∀ l acc : Chars,
      (pySplitAux l acc).foldr (· ++ ·) [] =
        acc.reverse ++ l.filter (fun c => !pyIsSpace c)
  | [], acc => by
    rw [pySplitAux]
    by_cases hae : acc = []
    · subst hae; simp
    · rw [if_neg hae]
      simp
  | c :: cs, acc => by
    rw [pySplitAux]
    by_cases hc : pyIsSpace c = true
    · rw [if_pos hc]
      by_cases hae : acc = []
      · subst hae
        rw [if_pos rfl, pySplitAux_foldr cs []]
        simp [List.filter_cons, hc]
      · rw [if_neg hae, List.foldr_cons, pySplitAux_foldr cs []]
        simp [List.filter_cons, hc]
    · rw [if_neg hc, pySplitAux_foldr cs (c :: acc)]
      simp [List.filter_cons, hc, List.append_assoc]

theorem parensOf_joinSpaces :
    ∀ ts : List Chars, parensOf (joinSpaces ts) = parensOf (ts.foldr (· ++ ·) [])
  | [] => rfl
  | [t] => by
    show parensOf t = parensOf (t ++ [])
    rw [List.append_nil]
  | t :: t' :: ts => by
    rw [joinSpaces, List.foldr_cons]
    unfold parensOf
    rw [List.filter_append, List.filter_append, List.filter_cons]
    have hsp : isParen ' ' = false := rfl
    rw [hsp]
    simp only [Bool.false_eq_true, if_false]
    congr 1
    exact parensOf_joinSpaces (t' :: ts)

theorem parensOf_filter_nonws (l : Chars) :
    parensOf (l.filter (fun c => !pyIsSpace c)) = parensOf l := by
  unfold parensOf
  rw [List.filter_filter]
  apply List.filter_congr
  intro c _
  by_cases hp : isParen c = true
  · rcases (by simpa [isParen] using hp : c = '(' ∨ c = ')') with hcc | hcc <;>
      (subst hcc; rfl)
  · have hp' : isParen c = false := by simpa using hp
    rw [hp']
    simp

theorem parensOf_normSpace (l : Chars) : parensOf (normSpace l) = parensOf l := by
  unfold normSpace
  rw [parensOf_joinSpaces (pySplit l)]
  rw [show (pySplit l).foldr (· ++ ·) [] = l.filter (fun c => !pyIsSpace c) from by
    simpa using pySplitAux_foldr l []]
  exact parensOf_filter_nonws l

theorem cleanNameCore_no_pair (l : Chars) : hasPair (cleanNameCore l) = false := by
  have h1 : hasPair (pyStrip (subParens l)) = false :=
    hasPair_false_of_sublist (pyStrip_sublist _) (hasPair_subParens l)
  have h2 := hasPair_congr (parensOf_normSpace (pyStrip (subParens l)))
  show hasPair (normSpace (pyStrip (subParens l))) = false
  rw [h2]
  exact h1

theorem normSpace_normSpace (l : Chars) : normSpace (normSpace l) = normSpace l := by
  show joinSpaces (pySplit (normSpace l)) = normSpace l
  rw [pySplit_normSpace l]
  rfl

theorem cleanNameCore_idem (l : Chars) :
    cleanNameCore (cleanNameCore l) = cleanNameCore l := by
  have hnp : hasPair (cleanNameCore l) = false := cleanNameCore_no_pair l
  show normSpace (pyStrip (subParens (cleanNameCore l))) = cleanNameCore l
  rw [subParens_eq_self hnp]
  show joinSpaces (pySplit (pyStrip (cleanNameCore l))) = cleanNameCore l
  rw [pySplit_pyStrip (cleanNameCore l)]
  show normSpace (normSpace (pyStrip (subParens l))) = cleanNameCore l
  rw [normSpace_normSpace]
  rfl

/-- C6 (amended: the sanitize half holds for every input; the normalize half
is refuted by `normalize_not_idempotent`): `_clean_ingredient_name` is
idempotent. -/
theorem sanitize_idempotent (s : String) :
    clean_ingredient_name (clean_ingredient_name s) = clean_ingredient_name s :=
  congrArg (fun l : Chars => (⟨l⟩ : String)) (cleanNameCore_idem s.data)

end NHP
